import Mathlib

/-!
Verification development for the ai-review repository (browser-side review UI
and its orchestration helpers). The JavaScript source functions are shallowly
embedded as executable Lean definitions over `List Char` / `String`, `Nat`,
`Int` and `ℚ`; each definition mirrors the control flow of the function of the
same name in the source. Theorems settle the frozen claims about vote
tallying, dedup group keys, line-range normalization, display numbering,
action normalization, consensus, initial-raise selection, SSE reconnection,
diff parsing and mention extraction.
-/

namespace AiReview

/-! ## Character and string helpers (JS runtime semantics) -/

/-- The whitespace class used by the JS regexes (`\s`) and by `trim` /
`trimStart`, restricted to the ASCII whitespace characters that can occur in
the data handled by the UI (space, tab, line feed, carriage return, vertical
tab, form feed). -/
def jsWhitespace (c : Char) : Bool :=
  c = ' ' || c = '\t' || c = '\n' || c = '\r' || c = '\x0b' || c = '\x0c'

/-- `String.prototype.trimStart`: drop leading whitespace. -/
def jsTrimStart (l : List Char) : List Char :=
  l.dropWhile jsWhitespace

/-- `String.prototype.trim`: drop leading and trailing whitespace. -/
def jsTrim (l : List Char) : List Char :=
  ((l.dropWhile jsWhitespace).reverse.dropWhile jsWhitespace).reverse

/-- `String.prototype.toLowerCase`, for the ASCII letters that occur in the
action and title strings handled here (Hangul and digits are unaffected). -/
def jsToLower (l : List Char) : List Char :=
  l.map Char.toLower

/-- `a.startsWith(b)` on character lists. -/
def startsWith (p l : List Char) : Bool :=
  p.isPrefixOf l

/-- `a.includes(b)` (substring test) on character lists. -/
def containsSeq (sub : List Char) : List Char → Bool
  | [] => sub.isEmpty
  | c :: rest => sub.isPrefixOf (c :: rest) || containsSeq sub rest

/-- `s.split(sep)` for a one-character separator, as in `key.split('.')`. -/
def splitOnChar (sep : Char) : List Char → List (List Char)
  | [] => [[]]
  | c :: rest =>
    match splitOnChar sep rest with
    | [] => [[]]
    | w :: ws => if c = sep then [] :: w :: ws else (c :: w) :: ws

/-- `s.replace(runRegex, r)` for a regex of the form `/p+/g`: every maximal
run of characters satisfying `p` is replaced by the single character `r`. The
boolean argument records whether the previous character was part of a run. -/
def collapseRuns (p : Char → Bool) (r : Char) : Bool → List Char → List Char
  | _, [] => []
  | prevInRun, c :: rest =>
    if p c then
      if prevInRun then collapseRuns p r true rest
      else r :: collapseRuns p r true rest
    else c :: collapseRuns p r false rest

/-! ## Action normalization (`_normalizeReviewerAction`, new-session.js) -/

/-- Key cleanup steps of `_normalizeReviewerAction`: a dotted name keeps its
last segment (kept unchanged when that segment is empty), whitespace runs and
dash runs become underscores, then the two exact renames `fixrequired` and
`nofix`. -/
def cleanActionKey (key0 : List Char) : List Char :=
  let key1 :=
    if key0.contains '.' then
      let popped := (splitOnChar '.' key0).getLastD []
      if popped = [] then key0 else popped
    else key0
  let key2 := collapseRuns jsWhitespace '_' false key1
  let key3 := collapseRuns (fun c => c = '-') '_' false key2
  let key4 := if key3 = "fixrequired".data then "fix_required".data else key3
  if key4 = "nofix".data then "no_fix".data else key4

/-- Classification chain of `_normalizeReviewerAction`: the prefix tests, the
Korean keyword tests, and the default `comment`. -/
def classifyActionKey (key : List Char) : List Char :=
  if startsWith "status_change".data key then "status_change".data
  else if startsWith "false_positive".data key then "false_positive".data
  else if startsWith "withdraw".data key then "withdraw".data
  else if startsWith "fix_required".data key || startsWith "agree".data key then
    "fix_required".data
  else if startsWith "no_fix".data key || startsWith "disagree".data key then
    "no_fix".data
  else if startsWith "comment".data key || startsWith "clarify".data key then
    "comment".data
  else if startsWith "raise".data key then "raise".data
  else if containsSeq "오탐".data key then "false_positive".data
  else if containsSeq "철회".data key then "withdraw".data
  else if containsSeq "수정".data key && containsSeq "불필요".data key then "no_fix".data
  else if containsSeq "수정".data key && containsSeq "필요".data key then "fix_required".data
  else if containsSeq "의견".data key then "comment".data
  else if containsSeq "제기".data key then "raise".data
  else "comment".data

/-- Core of `_normalizeReviewerAction` on character lists, mirroring the JS
step by step: trim and lowercase; empty input becomes `comment`; otherwise
the key cleanup steps followed by the classification chain. -/
def normalizeReviewerActionL (action : List Char) : List Char :=
  let key0 := jsToLower (jsTrim action)
  if key0 = [] then "comment".data
  else classifyActionKey (cleanActionKey key0)

/-- `_normalizeReviewerAction` from
src/ai_review/static/js/modals/new-session.js (lines 547-572). -/
def _normalizeReviewerAction (action : String) : String :=
  (normalizeReviewerActionL action.data).asString

/-- The closed set of reviewer actions named by the spec. -/
def reviewerActionSet : List String :=
  ["raise", "fix_required", "no_fix", "false_positive", "withdraw", "comment",
   "status_change"]

/-! ## Data model -/

/-- One entry of an issue thread, with the fields the embedded functions
read: opiner model id, action string, turn number, and the timestamp in
epoch milliseconds (the value `new Date(op.timestamp).getTime()` yields). -/
structure Opinion where
  model_id : String
  action : String
  turn : Nat
  timestamp : Int
  deriving Repr, DecidableEq

/-- An issue as the UI functions read it. Line fields are `Option Int`:
`none` stands for an absent or non-integer value, which is exactly what the
`Number.isInteger` guards in the source filter out. -/
structure Issue where
  id : String := ""
  file : String := ""
  title : String := ""
  raised_by : String := ""
  line : Option Int := none
  line_start : Option Int := none
  line_end : Option Int := none
  thread : List Opinion := []
  deriving Repr, DecidableEq

/-! ## Vote tally (`voteTallyBadgeHtml`, new-session.js lines 606-623) -/

/-- The three counters rendered by the vote tally badge. -/
structure VoteTally where
  fix : Nat
  comment : Nat
  nofix : Nat
  deriving Repr, DecidableEq

/-- The loop body of `voteTallyBadgeHtml`: walk the thread in order, skip
`status_change` opinions, skip opiners already seen, record the opiner as
seen, and bump the bucket selected by the normalized action. -/
def voteTallyAux (seen : List String) (fix comment nofix : Nat) :
    List Opinion → VoteTally
  | [] => ⟨fix, comment, nofix⟩
  | op :: rest =>
    let action := _normalizeReviewerAction op.action
    if action = "status_change" then voteTallyAux seen fix comment nofix rest
    else if seen.contains op.model_id then voteTallyAux seen fix comment nofix rest
    else if action = "raise" || action = "fix_required" then
      voteTallyAux (op.model_id :: seen) (fix + 1) comment nofix rest
    else if action = "comment" then
      voteTallyAux (op.model_id :: seen) fix (comment + 1) nofix rest
    else if action = "no_fix" || action = "false_positive" || action = "withdraw" then
      voteTallyAux (op.model_id :: seen) fix comment (nofix + 1) rest
    else voteTallyAux (op.model_id :: seen) fix comment nofix rest

/-- The counters computed by `voteTallyBadgeHtml` (the function renders them
into an HTML badge, which adds nothing to the counts). -/
def voteTallyBadgeHtml (issue : Issue) : VoteTally :=
  voteTallyAux [] 0 0 0 issue.thread

/-- Keep-first deduplication with the set of already-seen elements, as a JS
`Set` built by insertion preserves first occurrences. -/
def dedupFirstAux {α : Type} [DecidableEq α] (seen : List α) : List α → List α
  | [] => []
  | a :: rest =>
    if seen.contains a then dedupFirstAux seen rest
    else a :: dedupFirstAux (a :: seen) rest

/-- Keep-first deduplication (`Array.from(new Set(array))`). -/
def dedupFirst {α : Type} [DecidableEq α] (l : List α) : List α :=
  dedupFirstAux [] l

/-- Spec wording of claim C1: an action is vote-bearing when it is
`fix_required`, `no_fix` or `false_positive`. -/
def isVoteBearing (a : String) : Bool :=
  a = "fix_required" || a = "no_fix" || a = "false_positive"

/-- Spec wording of claim C1: the latest vote-bearing opinion of a voter in
a thread (threads are ordered by insertion, so latest = last). -/
def latestVoteOf (thread : List Opinion) (v : String) : Option Opinion :=
  (thread.filter
    (fun op => op.model_id = v && isVoteBearing (_normalizeReviewerAction op.action))).getLast?

/-- The distinct voters that appear in a thread. -/
def votersOf (thread : List Opinion) : List String :=
  dedupFirst (thread.map (fun op => op.model_id))

/-- Spec wording of claim C1: the fix side of the tally counts one vote per
voter, taken from that voter's latest vote-bearing opinion. -/
def claimFixCount (thread : List Opinion) : Nat :=
  (votersOf thread).countP
    (fun v => (latestVoteOf thread v).any
      (fun op => _normalizeReviewerAction op.action = "fix_required"))

/-- The opinions the tally loop actually counts: the earliest opinion of each
opiner whose normalized action is not `status_change`; later opinions of the
same opiner are discarded. -/
def countedOps : List Opinion → List Opinion
  | [] => []
  | op :: rest =>
    if _normalizeReviewerAction op.action = "status_change" then countedOps rest
    else op :: countedOps (rest.filter (fun o => o.model_id ≠ op.model_id))
termination_by l => l.length
decreasing_by
  · exact Nat.lt_succ_of_le (Nat.le_refl _)
  · exact Nat.lt_succ_of_le (List.length_filter_le _ _)

/-- Bucket totals over a list of counted opinions, by normalized action:
`raise` and `fix_required` on the fix side, `comment` in the middle, and
`no_fix`, `false_positive` and `withdraw` on the no-fix side. -/
def bucketCounts (ops : List Opinion) : VoteTally :=
  ⟨ops.countP (fun op =>
      let a := _normalizeReviewerAction op.action
      a = "raise" || a = "fix_required"),
   ops.countP (fun op => _normalizeReviewerAction op.action = "comment"),
   ops.countP (fun op =>
      let a := _normalizeReviewerAction op.action
      a = "no_fix" || a = "false_positive" || a = "withdraw")⟩

/-- Declarative description of the tally the code computes. -/
def amendedVoteTally (thread : List Opinion) : VoteTally :=
  bucketCounts (countedOps thread)

/-- An issue whose single voter first comments and then votes fix_required:
the tally counts the earlier comment, not the later vote. -/
def c1CexIssue : Issue :=
  { raised_by := "B", thread := [⟨"A", "comment", 1, 10⟩, ⟨"A", "fix_required", 2, 20⟩] }

/-! ## Dedup group key (`normalizeTitle` / `issueGroupKey`) -/

/-- Character class kept by the title regex `[^a-z0-9가-힣\s]` replacement:
lowercase ASCII letters, digits, Hangul syllables and whitespace survive,
everything else becomes a space. -/
def titleKeepChar (c : Char) : Bool :=
  ('a' ≤ c && c ≤ 'z') || ('0' ≤ c && c ≤ '9') || ('가' ≤ c && c ≤ '힣') ||
    jsWhitespace c

/-- `s.split(/\s+/)` restricted to its nonempty tokens: the maximal runs of
non-whitespace characters. The JS call can also produce one empty leading or
trailing token, but every use here feeds the result into
`filter(w => w.length > 1)`, which discards empty tokens anyway. -/
def splitWsAux : List Char → List Char → List (List Char)
  | [], cur => if cur = [] then [] else [cur.reverse]
  | c :: rest, cur =>
    if jsWhitespace c then
      if cur = [] then splitWsAux rest [] else cur.reverse :: splitWsAux rest []
    else splitWsAux rest (c :: cur)

/-- Tokens of a title, in order. -/
def splitWs (l : List Char) : List (List Char) :=
  splitWsAux l []

/-- JS default `Array.prototype.sort` comparison on strings: lexicographic by
UTF-16 code unit, which for the characters involved equals comparison of the
Unicode code points `Char.val`. JS `sort` is a stable comparison sort, which
insertion sort models faithfully. -/
def lexLe (a b : List Char) : Bool :=
  match a, b with
  | [], _ => true
  | _ :: _, [] => false
  | x :: xs, y :: ys =>
    if x.val < y.val then true else if y.val < x.val then false else lexLe xs ys

/-- `arr.join(' ')` on token lists. -/
def joinSpace : List (List Char) → List Char
  | [] => []
  | [w] => w
  | w :: rest => w ++ (' ' :: joinSpace rest)

/-- `normalizeTitle` from new-session.js lines 656-665 (the same function
appears in the issue-list view module): lowercase, replace every character
outside `[a-z0-9가-힣\s]` by a space, split on whitespace, keep words longer
than one character, sort all of them, then keep the first four and join with
spaces. -/
def normalizeTitleL (title : List Char) : List Char :=
  let replaced := (jsToLower title).map (fun c => if titleKeepChar c then c else ' ')
  let words := (splitWs replaced).filter (fun w => w.length > 1)
  joinSpace ((List.insertionSort (fun a b => lexLe a b = true) words).take 4)

/-- `normalizeTitle` on strings. -/
def normalizeTitle (title : String) : String :=
  (normalizeTitleL title.data).asString

/-- `issueGroupKey` from new-session.js lines 667-669: the file path, the
separator, and the normalized title with the `misc` fallback for an empty
normalization. -/
def issueGroupKey (issue : Issue) : String :=
  issue.file ++ "::" ++ (if normalizeTitle issue.title = "" then "misc"
                         else normalizeTitle issue.title)

/-- Claim C2 wording of the normalization: sort only the FIRST FOUR remaining
tokens alphabetically and join them (take four, then sort), where the code
sorts all tokens and then takes four. -/
def normalizeTitleClaimC2 (title : List Char) : List Char :=
  let replaced := (jsToLower title).map (fun c => if titleKeepChar c then c else ' ')
  let words := (splitWs replaced).filter (fun w => w.length > 1)
  joinSpace (List.insertionSort (fun a b => lexLe a b = true) (words.take 4))

/-- The issue-list grouping of `renderIssueList` (part_000 lines 72-77): the
bucket `grouped[key]` holds exactly the issues whose group key equals `key`,
in list order. -/
def groupedIssues (issues : List Issue) (key : String) : List Issue :=
  issues.filter (fun i => issueGroupKey i = key)

/-! ## Line ranges (`_issueLineRange` / `_isIssueTargetLine`) -/

/-- `_issueLineRange` from new-session.js lines 671-682: start defaults from
`line_start` to `line`, end defaults from `line_end` to the current start; a
missing start is pulled up from the end; finally start and end are swapped
when they are both present and out of order. -/
def _issueLineRange (issue : Issue) : Option Int × Option Int :=
  let line := issue.line
  let start0 := match issue.line_start with
                | some v => some v
                | none => line
  let end0 := match issue.line_end with
              | some v => some v
              | none => start0
  let start1 := match start0, end0 with
                | none, some e => some e
                | _, _ => start0
  match start1, end0 with
  | some s, some e => if e < s then (some e, some s) else (some s, some e)
  | _, _ => (start1, end0)

/-- `_isIssueTargetLine` from new-session.js lines 691-697, for an integer
`lineNo` (the JS guard `Number.isInteger(lineNo)` is the Lean type `Int`):
inside the normalized range, inclusive on both ends, with the end falling
back to the start. -/
def _isIssueTargetLine (issue : Issue) (lineNo : Int) : Bool :=
  match _issueLineRange issue with
  | (some s, e) => s ≤ lineNo && lineNo ≤ e.getD s
  | (none, _) => false

/-! ## Display numbers (`ensureIssueDisplayNumbers`, issue-list view) -/

/-- The two pieces of client state the numbering uses: the
`issueNumberById` map (newest binding first, as repeated JS assignments
shadow) and the `nextIssueNumber` counter. -/
structure NumState where
  issueNumberById : List (String × Nat)
  nextIssueNumber : Nat
  deriving Repr, DecidableEq

/-- Reading `state.issueNumberById[id]` where the JS code treats a missing
entry like `0` (the code tests the value for falsiness and renders
`state.issueNumberById[issue.id] || 0`). -/
def numLookup (m : List (String × Nat)) (id : String) : Nat :=
  match m with
  | [] => 0
  | (k, v) :: rest => if k = id then v else numLookup rest id

/-- `ensureIssueDisplayNumbers` from the issue-list view (part_000 lines
53-59): walk the issues in order and give each issue without a number the
next counter value. -/
def ensureIssueDisplayNumbers (s : NumState) (issues : List Issue) : NumState :=
  issues.foldl
    (fun st issue =>
      if numLookup st.issueNumberById issue.id = 0 then
        ⟨(issue.id, st.nextIssueNumber) :: st.issueNumberById, st.nextIssueNumber + 1⟩
      else st)
    s

/-- The numbering state installed by `switchSession` (session-tabs.js lines
46-47): `state.issueNumberById = ` the empty map and
`state.nextIssueNumber = 1`, which is also the initial state in state.js. -/
def switchSessionNumState : NumState :=
  ⟨[], 1⟩

/-! ## Consensus (spec-modelled; the consensus engine is server-side code
that is not part of the shipped src tree) -/

/-- Issue severity levels, ranked from most to least severe. -/
inductive Severity
  | critical
  | high
  | medium
  | low
  deriving Repr, DecidableEq

/-- Rank used to order severities for the weighted median. -/
def severityRank : Severity → Nat
  | .critical => 0
  | .high => 1
  | .medium => 2
  | .low => 3

/-- Agent strictness levels. -/
inductive Strictness
  | strict
  | balanced
  | lenient
  deriving Repr, DecidableEq

/-- Modelled from the spec: the strictness weight mapping
strict = 1.0, balanced = 0.7, lenient = 0.4 (spec section 4.6). -/
def strictnessWeight : Strictness → ℚ
  | .strict => 1
  | .balanced => 7 / 10
  | .lenient => 2 / 5

/-- Modelled from the spec: the weight of a vote is max(confidence, 0.1)
when the voter supplied a confidence, otherwise the strictness mapping of
the voting agent (spec section 4.6). -/
def voteWeight (confidence : Option ℚ) (s : Strictness) : ℚ :=
  match confidence with
  | some c => max c (1 / 10)
  | none => strictnessWeight s

/-- One counted vote of the consensus computation: the side it supports
(`true` = fix side), the voter confidence, the voter strictness, and an
optional suggested severity. -/
structure Vote where
  sideFix : Bool
  confidence : Option ℚ
  strictness : Strictness
  suggested : Option Severity
  deriving Repr, DecidableEq

/-- Weight total of the fix side. -/
def fixWeight (votes : List Vote) : ℚ :=
  ((votes.filter (fun v => v.sideFix)).map
    (fun v => voteWeight v.confidence v.strictness)).sum

/-- Weight total of the no-fix side (`no_fix` and `false_positive` votes). -/
def nofixWeight (votes : List Vote) : ℚ :=
  ((votes.filter (fun v => !v.sideFix)).map
    (fun v => voteWeight v.confidence v.strictness)).sum

/-- Number of latest votes on the fix side. -/
def fixCount (votes : List Vote) : Nat :=
  (votes.filter (fun v => v.sideFix)).length

/-- Number of latest votes on the no-fix side. -/
def nofixCount (votes : List Vote) : Nat :=
  (votes.filter (fun v => !v.sideFix)).length

/-- Cumulative suggested-severity weight at or above a severity rank. -/
def severityCumWeight (votes : List Vote) (s : Severity) : ℚ :=
  ((votes.filter
      (fun v => match v.suggested with
                | some sev => severityRank sev ≤ severityRank s
                | none => false)).map
    (fun v => voteWeight v.confidence v.strictness)).sum

/-- Total weight of the votes that suggested a severity. -/
def severityTotalWeight (votes : List Vote) : ℚ :=
  ((votes.filter (fun v => v.suggested.isSome)).map
    (fun v => voteWeight v.confidence v.strictness)).sum

/-- Modelled from the spec: the weighted median of suggested severities,
with a fallback to the raise severity when no vote carries a suggestion:
the most severe rank at which the cumulative weight reaches half of the
total suggested weight (spec section 4.6). -/
def finalSeverity (votes : List Vote) (raiseSeverity : Severity) : Severity :=
  if (votes.filter (fun v => v.suggested.isSome)).isEmpty then raiseSeverity
  else
    (([Severity.critical, Severity.high, Severity.medium, Severity.low].find?
        (fun s => severityTotalWeight votes ≤ 2 * severityCumWeight votes s)).getD
      Severity.low)

/-- Outcome of the per-issue consensus computation. -/
structure ConsensusResult where
  consensus : Bool
  consensus_type : String
  final_severity : Severity
  deriving Repr, DecidableEq

/-- Modelled from the spec (section 4.6), covering code that is not in the
shipped src tree (the server consensus engine): one side must exceed the
other by at least the threshold `T`; otherwise, when every eligible voter
has voted (`allVoted`), the simple majority of latest votes decides, with
ties left undecided. The winning side fixes `consensus_type`
(`fix_required` or `dismissed`) and `final_severity` is the weighted median
with fallback to the raise severity. -/
def computeConsensus (votes : List Vote) (allVoted : Bool) (T : ℚ)
    (raiseSeverity : Severity) : ConsensusResult :=
  let fw := fixWeight votes
  let nw := nofixWeight votes
  if fw ≥ nw + T then ⟨true, "fix_required", finalSeverity votes raiseSeverity⟩
  else if nw ≥ fw + T then ⟨true, "dismissed", finalSeverity votes raiseSeverity⟩
  else if allVoted then
    if fixCount votes > nofixCount votes then
      ⟨true, "fix_required", finalSeverity votes raiseSeverity⟩
    else if nofixCount votes > fixCount votes then
      ⟨true, "dismissed", finalSeverity votes raiseSeverity⟩
    else ⟨false, "undecided", raiseSeverity⟩
  else ⟨false, "undecided", raiseSeverity⟩

/-- The deadlock-bypass scenario of spec section 8 (scenario 4): three
reviewers vote fix_required with confidence 0.3 each. -/
def sc4Votes : List Vote :=
  [⟨true, some (3 / 10), .balanced, none⟩, ⟨true, some (3 / 10), .balanced, none⟩,
   ⟨true, some (3 / 10), .balanced, none⟩]

/-! ## Initial raise selection (`_getInitialRaiseOpinion`, new-session.js
lines 625-639) -/

/-- `_isRaiseAction` from new-session.js lines 591-593. -/
def _isRaiseAction (action : String) : Bool :=
  _normalizeReviewerAction action = "raise"

/-- The candidate filter inside `_getInitialRaiseOpinion`: opinions of the
raiser (after trimming both ids) whose action normalizes to `raise` at
turn 0. -/
def raiseCandidates (issue : Issue) : List Opinion :=
  issue.thread.filter
    (fun op => jsTrim op.model_id.data = jsTrim issue.raised_by.data &&
               _isRaiseAction op.action && op.turn = 0)

/-- `_getInitialRaiseOpinion` from new-session.js lines 625-639: empty
raiser id gives null; no candidate gives null; otherwise the candidates are
stably sorted by ascending timestamp and the first is returned. -/
def _getInitialRaiseOpinion (issue : Issue) : Option Opinion :=
  if jsTrim issue.raised_by.data = [] then none
  else
    let candidates := raiseCandidates issue
    if candidates.isEmpty then none
    else (List.insertionSort (fun a b => a.timestamp ≤ b.timestamp) candidates).head?

/-! ## SSE client (features/sse.js) -/

/-- The module-local SSE client state: the current `EventSource` (identified
by a counter), the polling interval in milliseconds (`none` when no interval
is installed), and the pending reconnect timer delay scheduled by the error
handler. -/
structure SseClientState where
  sseSource : Option Nat := none
  statusPollIntervalMs : Option Nat := none
  pendingReconnectMs : Option Nat := none
  nextSourceId : Nat := 0
  deriving Repr, DecidableEq

/-- `startStatusPolling` (sse.js lines 34-37): install a 5000 ms interval
unless one is already running. -/
def startStatusPolling (s : SseClientState) : SseClientState :=
  if s.statusPollIntervalMs.isSome then s
  else { s with statusPollIntervalMs := some 5000 }

/-- `stopStatusPolling` (sse.js lines 39-43): clear the interval. -/
def stopStatusPolling (s : SseClientState) : SseClientState :=
  { s with statusPollIntervalMs := none }

/-- `closeSSE` (sse.js lines 121-123). -/
def closeSSE (s : SseClientState) : SseClientState :=
  { s with sseSource := none }

/-- `connectSSE` (sse.js lines 125-152): close any previous source and open
a new `EventSource`. -/
def connectSSE (s : SseClientState) : SseClientState :=
  let s1 := closeSSE s
  { s1 with sseSource := some s1.nextSourceId, nextSourceId := s1.nextSourceId + 1 }

/-- The `onopen` handler installed by `connectSSE` (sse.js lines 129-132):
stop the polling interval (a poll is also scheduled immediately, which does
not touch the fields modelled here). -/
def onSseOpen (s : SseClientState) : SseClientState :=
  stopStatusPolling s

/-- The `onerror` handler installed by `connectSSE` (sse.js lines 146-151):
close the source, resume status polling, and schedule a reconnect attempt
after 3000 ms. -/
def onSseError (s : SseClientState) : SseClientState :=
  { startStatusPolling { s with sseSource := none } with pendingReconnectMs := some 3000 }

/-- The reconnect timer body (sse.js line 150): when it fires, connect again
only if a session is still selected. -/
def onReconnectTimer (sessionId : Option String) (s : SseClientState) : SseClientState :=
  let s1 := { s with pendingReconnectMs := none }
  match sessionId with
  | some _ => connectSSE s1
  | none => s1

/-! ## Unified diff parsing (`parseDiffLines`, diff renderer) -/

/-- Row kinds produced by `parseDiffLines`. -/
inductive DiffRowType
  | hunk
  | add
  | del
  | ctx
  deriving Repr, DecidableEq

/-- One parsed row. The JS fills the absent side with the empty string; that
is `none` here. -/
structure DiffRow where
  type : DiffRowType
  old : Option Nat
  new : Option Nat
  text : List Char
  deriving Repr, DecidableEq

/-- `content.split('\n')`. -/
def splitNl : List Char → List (List Char)
  | [] => [[]]
  | c :: rest =>
    match splitNl rest with
    | [] => [[]]
    | w :: ws => if c = '\n' then [] :: w :: ws else (c :: w) :: ws

/-- Parse a maximal nonempty digit run, as `(\d+)` with `parseInt`. -/
def parseDigits (l : List Char) : Option (Nat × List Char) :=
  let ds := l.takeWhile Char.isDigit
  if ds.isEmpty then none
  else some (ds.foldl (fun n c => n * 10 + (c.toNat - 48)) 0, l.drop ds.length)

/-- The optional `(?:,\d+)?` group. When a comma is present but not followed
by digits, the group matches empty and the following mandatory space test
fails on the comma, so leaving the comma in place is faithful. -/
def skipCommaNum (l : List Char) : List Char :=
  match l with
  | ',' :: rest =>
    match parseDigits rest with
    | some (_, r) => r
    | none => ',' :: rest
  | _ => l

/-- Try the hunk header pattern `@@ -(\d+)(?:,\d+)? \+(\d+)(?:,\d+)? @@(.*)`
at the start of `l`. -/
def matchHunkAt (l : List Char) : Option (Nat × Nat) :=
  if startsWith "@@ -".data l then
    match parseDigits (l.drop 4) with
    | none => none
    | some (a, r1) =>
      match skipCommaNum r1 with
      | r2 =>
        match r2 with
        | ' ' :: '+' :: r3 =>
          match parseDigits r3 with
          | none => none
          | some (b, r4) =>
            match skipCommaNum r4 with
            | ' ' :: '@' :: '@' :: _ => some (a, b)
            | _ => none
        | _ => none
  else none

/-- Leftmost match of the hunk header pattern, as `line.match(regex)` finds
it (the pattern is not anchored). -/
def findHunkHeader : List Char → Option (Nat × Nat)
  | [] => none
  | c :: rest =>
    match matchHunkAt (c :: rest) with
    | some r => some r
    | none => findHunkHeader rest

/-- The metadata test of `parseDiffLines`:
`/^(diff --git|index |---\s|\+\+\+\s|new file mode|deleted file mode|similarity index|rename from |rename to |old mode |new mode )/`
applied to the trimmed line. -/
def isMetaLine (l : List Char) : Bool :=
  startsWith "diff --git".data l || startsWith "index ".data l ||
  (startsWith "---".data l && (match l.drop 3 with
                               | c :: _ => jsWhitespace c
                               | [] => false)) ||
  (startsWith "+++".data l && (match l.drop 3 with
                               | c :: _ => jsWhitespace c
                               | [] => false)) ||
  startsWith "new file mode".data l || startsWith "deleted file mode".data l ||
  startsWith "similarity index".data l || startsWith "rename from ".data l ||
  startsWith "rename to ".data l || startsWith "old mode ".data l ||
  startsWith "new mode ".data l

/-- The loop of `parseDiffLines` (part_004 lines 5-26), carrying the
`oldLine` and `newLine` counters. -/
def parseDiffAux (oldLine newLine : Nat) : List (List Char) → List DiffRow
  | [] => []
  | line :: rest =>
    let trimmed := jsTrimStart line
    if startsWith "@@".data trimmed then
      match findHunkHeader line with
      | some (a, b) => ⟨.hunk, none, none, line⟩ :: parseDiffAux a b rest
      | none => ⟨.hunk, none, none, line⟩ :: parseDiffAux oldLine newLine rest
    else if isMetaLine trimmed then parseDiffAux oldLine newLine rest
    else if startsWith "+".data line then
      ⟨.add, none, some newLine, line.drop 1⟩ :: parseDiffAux oldLine (newLine + 1) rest
    else if startsWith "-".data line then
      ⟨.del, some oldLine, none, line.drop 1⟩ :: parseDiffAux (oldLine + 1) newLine rest
    else
      let text := if startsWith " ".data line then line.drop 1 else line
      ⟨.ctx, some oldLine, some newLine, text⟩ ::
        parseDiffAux (oldLine + 1) (newLine + 1) rest

/-- `parseDiffLines` from the diff renderer (part_004): falsy content (null,
undefined or the empty string) yields no rows; otherwise the content is
split on newlines and scanned with both counters starting at 0. -/
def parseDiffLines (content : Option String) : List DiffRow :=
  match content with
  | none => []
  | some s => if s = "" then [] else parseDiffAux 0 0 (splitNl s.data)

/-- The numbering discipline claim C9 states, as a predicate on the emitted
rows: after a hunk header carrying `(a, b)`, every added or context row in
that hunk carries new-file number `b` plus the count of earlier added or
context rows of the hunk, and every deleted or context row carries old-file
number `a` plus the count of earlier deleted or context rows; a hunk row
whose header does not match the pattern leaves the counters unchanged. -/
def rowsNumberedFrom (oldLine newLine : Nat) : List DiffRow → Bool
  | [] => true
  | r :: rest =>
    match r.type with
    | .hunk =>
      (r.old = none && r.new = none) &&
      (match findHunkHeader r.text with
       | some (a, b) => rowsNumberedFrom a b rest
       | none => rowsNumberedFrom oldLine newLine rest)
    | .add => r.old = none && r.new = some newLine && rowsNumberedFrom oldLine (newLine + 1) rest
    | .del => r.old = some oldLine && r.new = none && rowsNumberedFrom (oldLine + 1) newLine rest
    | .ctx => r.old = some oldLine && r.new = some newLine &&
              rowsNumberedFrom (oldLine + 1) (newLine + 1) rest

/-! ## Mentions (`submitOpinion`, opinions feature, part_003 lines 151-164) -/

/-- The character class of the mention regex `@([A-Za-z0-9_-]+)`. -/
def nameChar (c : Char) : Bool :=
  ('A' ≤ c && c ≤ 'Z') || ('a' ≤ c && c ≤ 'z') || ('0' ≤ c && c ≤ '9') ||
    c = '_' || c = '-'

/-- `text.match(/@([A-Za-z0-9_-]+)/g)` with the leading `@` stripped from
each match: scan left to right; at each `@` take the maximal nonempty run of
name characters, emit it, and continue after it. -/
def scanMentions : List Char → List (List Char)
  | [] => []
  | c :: rest =>
    if c = '@' then
      let name := rest.takeWhile nameChar
      if name.isEmpty then scanMentions rest
      else name :: scanMentions (rest.drop name.length)
    else scanMentions rest
termination_by l => l.length
decreasing_by
  all_goals simp only [List.length_cons, List.length_drop]
  all_goals omega

/-- The request body `submitOpinion` posts. -/
structure OpinionRequest where
  model_id : String
  action : String
  reasoning : String
  suggested_severity : Option String
  mentions : List String
  deriving Repr, DecidableEq

/-- `submitOpinion` from the opinions feature (part_003 lines 151-164),
reduced to the data it submits: the comment text is trimmed; an empty text
aborts without a request; otherwise the mentions are the distinct regex
matches (a JS `Set` keeps first occurrences) with `@` stripped. -/
def submitOpinion (commentText : String) (severitySel : Option String)
    (action : String) : Option OpinionRequest :=
  let text := jsTrim commentText.data
  if text.isEmpty then none
  else some
    { model_id := "human"
      action := action
      reasoning := text.asString
      suggested_severity := severitySel
      mentions := (dedupFirst (scanMentions text)).map List.asString }

/-! ## Theorems -/

/-- Every branch of the classification chain returns one of the seven
actions. -/
theorem classifyActionKey_mem (key : List Char) :
    classifyActionKey key ∈ reviewerActionSet.map String.data := by
  unfold classifyActionKey reviewerActionSet
  generalize startsWith "status_change".data key = b1
  generalize startsWith "false_positive".data key = b2
  generalize startsWith "withdraw".data key = b3
  generalize (startsWith "fix_required".data key || startsWith "agree".data key) = b4
  generalize (startsWith "no_fix".data key || startsWith "disagree".data key) = b5
  generalize (startsWith "comment".data key || startsWith "clarify".data key) = b6
  generalize startsWith "raise".data key = b7
  generalize containsSeq "오탐".data key = b8
  generalize containsSeq "철회".data key = b9
  generalize (containsSeq "수정".data key && containsSeq "불필요".data key) = b10
  generalize (containsSeq "수정".data key && containsSeq "필요".data key) = b11
  generalize containsSeq "의견".data key = b12
  generalize containsSeq "제기".data key = b13
  cases b1 with
  | true => rw [if_pos rfl]; decide
  | false =>
  rw [if_neg (by decide)]
  cases b2 with
  | true => rw [if_pos rfl]; decide
  | false =>
  rw [if_neg (by decide)]
  cases b3 with
  | true => rw [if_pos rfl]; decide
  | false =>
  rw [if_neg (by decide)]
  cases b4 with
  | true => rw [if_pos rfl]; decide
  | false =>
  rw [if_neg (by decide)]
  cases b5 with
  | true => rw [if_pos rfl]; decide
  | false =>
  rw [if_neg (by decide)]
  cases b6 with
  | true => rw [if_pos rfl]; decide
  | false =>
  rw [if_neg (by decide)]
  cases b7 with
  | true => rw [if_pos rfl]; decide
  | false =>
  rw [if_neg (by decide)]
  cases b8 with
  | true => rw [if_pos rfl]; decide
  | false =>
  rw [if_neg (by decide)]
  cases b9 with
  | true => rw [if_pos rfl]; decide
  | false =>
  rw [if_neg (by decide)]
  cases b10 with
  | true => rw [if_pos rfl]; decide
  | false =>
  rw [if_neg (by decide)]
  cases b11 with
  | true => rw [if_pos rfl]; decide
  | false =>
  rw [if_neg (by decide)]
  cases b12 with
  | true => rw [if_pos rfl]; decide
  | false =>
  rw [if_neg (by decide)]
  cases b13 with
  | true => rw [if_pos rfl]; decide
  | false =>
  rw [if_neg (by decide)]
  decide

/-- A member of a mapped-out character-list set comes from a string of the
set. -/
theorem asString_mem {x : List Char} {l : List String}
    (h : x ∈ l.map String.data) : x.asString ∈ l := by
  rcases List.mem_map.mp h with ⟨s, hs, rfl⟩
  cases s
  simpa [List.asString] using hs

/-- Action normalization always lands in the closed seven-action set. -/
theorem normalizeReviewerActionMem (s : String) :
    _normalizeReviewerAction s ∈ reviewerActionSet := by
  simp only [_normalizeReviewerAction, normalizeReviewerActionL]
  by_cases h0 : jsToLower (jsTrim s.data) = []
  · rw [if_pos h0]; decide
  · rw [if_neg h0]
    exact asString_mem (classifyActionKey_mem (cleanActionKey (jsToLower (jsTrim s.data))))

/-- C5 (amended): action normalization is total and always lands in the
closed seven-action set; inputs recognizable as no action are normalized to
the default action `comment` instead of being rejected (see the
counterexample for the rejection part of the original claim). -/
theorem normalizeReviewerAction_closed (s : String) :
    _normalizeReviewerAction s ∈ reviewerActionSet :=
  normalizeReviewerActionMem s

/-- C5 counterexample: the claim says an input that is not recognizable as
any of the seven actions is rejected; the code instead returns the default
action `comment` for such inputs (and for empty input), indistinguishable
from a genuine comment. -/
theorem normalizeReviewerAction_default_cex :
    _normalizeReviewerAction "synergize the widgets" = "comment" ∧
    _normalizeReviewerAction "" = "comment" ∧
    _normalizeReviewerAction "comment" = "comment" := by
  refine ⟨by decide, by decide, by decide⟩

/-- C8: on an SSE error the client closes the stream, resumes the 5-second
status polling and schedules a reconnect attempt after 3 seconds; the
reconnect timer reconnects exactly when a session is still selected; a
successful stream open stops the polling interval. The hypothesis is the
module invariant that the only polling interval ever installed is the
5000 ms one. -/
theorem sseClient_reconnect_spec (s : SseClientState) (sid : String)
    (h : s.statusPollIntervalMs = none ∨ s.statusPollIntervalMs = some 5000) :
    (onSseError s).sseSource = none ∧
    (onSseError s).statusPollIntervalMs = some 5000 ∧
    (onSseError s).pendingReconnectMs = some 3000 ∧
    (onReconnectTimer (some sid) (onSseError s)).sseSource = some (onSseError s).nextSourceId ∧
    (onReconnectTimer none (onSseError s)).sseSource = none ∧
    (onSseOpen s).statusPollIntervalMs = none := by
  rcases h with h | h <;>
    simp [onSseError, onSseOpen, onReconnectTimer, startStatusPolling,
      stopStatusPolling, connectSSE, closeSSE, h]

/-- C8 witness: the reconnect behavior evaluated in the initial client
state. -/
theorem sseClient_reconnect_witness :
    (onSseError { }).statusPollIntervalMs = some 5000 ∧
    (onReconnectTimer (some "abc123def456") (onSseError { })).sseSource = some 0 := by
  have h := sseClient_reconnect_spec { } "abc123def456" (Or.inl rfl)
  exact ⟨h.2.1, h.2.2.2.1⟩

/-- C3: an issue carrying integer `line_start > line_end` is normalized by
swapping the bounds, never rejected; every normalized range satisfies
start ≤ end and always carries an end when it carries a start; and a line
number is inside the range exactly when it lies between the normalized
bounds, inclusive on both ends. -/
theorem issueLineRange_spec (issue : Issue) :
    (∀ a b, issue.line_start = some a → issue.line_end = some b → b < a →
       _issueLineRange issue = (some b, some a)) ∧
    (∀ s e, _issueLineRange issue = (some s, some e) → s ≤ e) ∧
    (∀ s, (_issueLineRange issue).1 = some s → ∃ e, (_issueLineRange issue).2 = some e) ∧
    (∀ s e n, _issueLineRange issue = (some s, some e) →
       (_isIssueTargetLine issue n = true ↔ s ≤ n ∧ n ≤ e)) := by
  refine ⟨?_, ?_, ?_, ?_⟩
  · intro a b h1 h2 h3
    unfold _issueLineRange
    rw [h1, h2]
    simp [h3]
  · obtain ⟨id, file, title, rb, line, ls, le, th⟩ := issue
    unfold _issueLineRange
    rcases ls with _ | a <;> rcases le with _ | b <;> rcases line with _ | c <;>
      simp <;> (try split) <;> simp_all <;> omega
  · obtain ⟨id, file, title, rb, line, ls, le, th⟩ := issue
    unfold _issueLineRange
    rcases ls with _ | a <;> rcases le with _ | b <;> rcases line with _ | c <;>
      simp <;> (try split) <;> simp_all
  · intro s e n h
    unfold _isIssueTargetLine
    rw [h]
    simp

/-- C3 witness: an issue with `line_start = 12 > line_end = 10` is swapped to
the range 10-12, and line 11 is inside it. -/
theorem issueLineRange_witness :
    _issueLineRange ({ line_start := some 12, line_end := some 10 } : Issue)
      = (some 10, some 12) ∧
    _isIssueTargetLine ({ line_start := some 12, line_end := some 10 } : Issue) 11 = true := by
  have h := issueLineRange_spec ({ line_start := some 12, line_end := some 10 } : Issue)
  have hr := h.1 12 10 rfl rfl (by decide)
  exact ⟨hr, (h.2.2.2 10 12 11 hr).mpr (by decide)⟩

theorem ensure_preserves (issues : List Issue) :
    ∀ (s : NumState) (id : String), numLookup s.issueNumberById id ≠ 0 →
      numLookup (ensureIssueDisplayNumbers s issues).issueNumberById id
        = numLookup s.issueNumberById id := by
  induction issues with
  | nil => intro s id h; rfl
  | cons i t ih =>
    intro s id h
    simp only [ensureIssueDisplayNumbers, List.foldl_cons] at *
    by_cases hc : numLookup s.issueNumberById i.id = 0
    · rw [if_pos hc]
      have hne : i.id ≠ id := fun he => h (he ▸ hc)
      have hl : numLookup ((i.id, s.nextIssueNumber) :: s.issueNumberById) id
          = numLookup s.issueNumberById id := by
        simp [numLookup, hne]
      rw [ih ⟨(i.id, s.nextIssueNumber) :: s.issueNumberById, s.nextIssueNumber + 1⟩ id
        (by rw [hl]; exact h)]
      exact hl
    · rw [if_neg hc]
      exact ih s id h

theorem ensure_assigns (issues : List Issue) :
    ∀ (s : NumState), 0 < s.nextIssueNumber →
      (∀ i ∈ issues, numLookup s.issueNumberById i.id = 0) →
      (issues.map Issue.id).Nodup →
      ∀ k (hk : k < issues.length),
        numLookup (ensureIssueDisplayNumbers s issues).issueNumberById
          (issues.get ⟨k, hk⟩).id = s.nextIssueNumber + k := by
  induction issues with
  | nil => intro s _ _ _ k hk; exact absurd hk (by simp)
  | cons i t ih =>
    intro s hpos h hnodup k hk
    have hc : numLookup s.issueNumberById i.id = 0 := h i (List.mem_cons_self i t)
    have hstep : ensureIssueDisplayNumbers s (i :: t)
        = ensureIssueDisplayNumbers
            ⟨(i.id, s.nextIssueNumber) :: s.issueNumberById, s.nextIssueNumber + 1⟩ t := by
      simp only [ensureIssueDisplayNumbers, List.foldl_cons]
      rw [if_pos hc]
    have hmapcons := hnodup
    rw [List.map_cons] at hmapcons
    have hparts := List.nodup_cons.mp hmapcons
    match k with
    | 0 =>
      have hlook : numLookup ((i.id, s.nextIssueNumber) :: s.issueNumberById) i.id
          = s.nextIssueNumber := by simp [numLookup]
      have hpres := ensure_preserves t
        ⟨(i.id, s.nextIssueNumber) :: s.issueNumberById, s.nextIssueNumber + 1⟩ i.id
        (by rw [hlook]; omega)
      rw [hstep]
      show numLookup _ i.id = s.nextIssueNumber + 0
      rw [hpres, hlook]
      omega
    | k + 1 =>
      have hkt : k < t.length := by
        have := hk
        simp only [List.length_cons] at this
        omega
      have ht : ∀ j ∈ t, numLookup ((i.id, s.nextIssueNumber) :: s.issueNumberById) j.id = 0 := by
        intro j hj
        have hne : i.id ≠ j.id := fun he => hparts.1 (he ▸ List.mem_map_of_mem Issue.id hj)
        have := h j (List.mem_cons_of_mem i hj)
        simpa [numLookup, hne] using this
      have hrec := ih ⟨(i.id, s.nextIssueNumber) :: s.issueNumberById, s.nextIssueNumber + 1⟩
        (Nat.succ_pos _) ht hparts.2 k hkt
      rw [hstep]
      show numLookup _ (t.get ⟨k, hkt⟩).id = s.nextIssueNumber + (k + 1)
      rw [hrec]
      show s.nextIssueNumber + 1 + k = s.nextIssueNumber + (k + 1)
      omega

theorem ensure_nonzero (issues : List Issue) :
    ∀ (s : NumState), 0 < s.nextIssueNumber →
      0 < (ensureIssueDisplayNumbers s issues).nextIssueNumber ∧
      ∀ i ∈ issues, numLookup (ensureIssueDisplayNumbers s issues).issueNumberById i.id ≠ 0 := by
  induction issues with
  | nil => intro s hpos; exact ⟨hpos, by simp⟩
  | cons i t ih =>
    intro s hpos
    simp only [ensureIssueDisplayNumbers, List.foldl_cons]
    by_cases hc : numLookup s.issueNumberById i.id = 0
    · rw [if_pos hc]
      have hrec := ih ⟨(i.id, s.nextIssueNumber) :: s.issueNumberById, s.nextIssueNumber + 1⟩
        (Nat.succ_pos _)
      refine ⟨hrec.1, ?_⟩
      intro j hj
      rcases List.mem_cons.mp hj with rfl | hjt
      · have hlook : numLookup ((j.id, s.nextIssueNumber) :: s.issueNumberById) j.id
            = s.nextIssueNumber := by simp [numLookup]
        have hpres := ensure_preserves t
          ⟨(j.id, s.nextIssueNumber) :: s.issueNumberById, s.nextIssueNumber + 1⟩ j.id
          (by rw [hlook]; omega)
        show numLookup (ensureIssueDisplayNumbers _ t).issueNumberById j.id ≠ 0
        rw [hpres, hlook]
        omega
      · exact hrec.2 j hjt
    · rw [if_neg hc]
      have hrec := ih s hpos
      refine ⟨hrec.1, ?_⟩
      intro j hj
      rcases List.mem_cons.mp hj with rfl | hjt
      · have hpres := ensure_preserves t s j.id hc
        show numLookup (ensureIssueDisplayNumbers s t).issueNumberById j.id ≠ 0
        rw [hpres]
        exact hc
      · exact hrec.2 j hjt

theorem ensure_fixed (issues : List Issue) :
    ∀ (s : NumState), (∀ i ∈ issues, numLookup s.issueNumberById i.id ≠ 0) →
      ensureIssueDisplayNumbers s issues = s := by
  induction issues with
  | nil => intro s _; rfl
  | cons i t ih =>
    intro s h
    simp only [ensureIssueDisplayNumbers, List.foldl_cons]
    rw [if_neg (h i (List.mem_cons_self i t))]
    exact ih s fun j hj => h j (List.mem_cons_of_mem i hj)

/-- C4: from the reset state installed on a session switch, display numbers
are assigned in observation order as the dense sequence 1..N; an issue that
already has a number keeps it across any later run of the numbering
(including on extended issue lists, and regardless of issue status); running
the numbering again changes nothing; and the session-switch reset state is
the empty map with counter 1. -/
theorem displayNumbers_spec :
    (∀ issues : List Issue, (issues.map Issue.id).Nodup →
       ∀ k (hk : k < issues.length),
         numLookup (ensureIssueDisplayNumbers switchSessionNumState issues).issueNumberById
           (issues.get ⟨k, hk⟩).id = k + 1) ∧
    (∀ (s : NumState) (issues : List Issue) (id : String),
       numLookup s.issueNumberById id ≠ 0 →
       numLookup (ensureIssueDisplayNumbers s issues).issueNumberById id
         = numLookup s.issueNumberById id) ∧
    (∀ issues : List Issue,
       ensureIssueDisplayNumbers (ensureIssueDisplayNumbers switchSessionNumState issues) issues
         = ensureIssueDisplayNumbers switchSessionNumState issues) ∧
    switchSessionNumState = ⟨[], 1⟩ := by
  refine ⟨?_, ?_, ?_, rfl⟩
  · intro issues hnodup k hk
    have h := ensure_assigns issues switchSessionNumState (by decide)
      (fun i _ => rfl) hnodup k hk
    rw [h]
    show 1 + k = k + 1
    omega
  · intro s issues id h
    exact ensure_preserves issues s id h
  · intro issues
    exact ensure_fixed issues _ (ensure_nonzero issues switchSessionNumState (by decide)).2

/-- C4 witness: two fresh issues get display numbers 1 and 2 in observation
order. -/
theorem displayNumbers_witness :
    numLookup (ensureIssueDisplayNumbers switchSessionNumState
        [({ id := "a" } : Issue), ({ id := "b" } : Issue)]).issueNumberById
      ([({ id := "a" } : Issue), ({ id := "b" } : Issue)].get ⟨1, by decide⟩).id = 1 + 1 :=
  displayNumbers_spec.1 [({ id := "a" } : Issue), ({ id := "b" } : Issue)] (by decide) 1 (by decide)

/-- C2 (amended): the dedup group key is the file path joined by `::` with
the normalized title (lowercase, punctuation stripped to spaces, words of
length at most 1 dropped, ALL remaining tokens sorted and the first four
kept, joined with spaces; `misc` when empty); two issues fall in the same
rendering group exactly when their keys are equal; and the key computation
is deterministic. -/
theorem issueGroupKey_spec (issue j : Issue) (issues : List Issue) :
    issueGroupKey issue = issue.file ++ "::" ++
      (if (joinSpace ((List.insertionSort (fun a b => lexLe a b = true)
              ((splitWs ((jsToLower issue.title.data).map
                (fun c => if titleKeepChar c then c else ' '))).filter
                (fun w => w.length > 1))).take 4)).asString = "" then "misc"
       else (joinSpace ((List.insertionSort (fun a b => lexLe a b = true)
              ((splitWs ((jsToLower issue.title.data).map
                (fun c => if titleKeepChar c then c else ' '))).filter
                (fun w => w.length > 1))).take 4)).asString) ∧
    (j ∈ groupedIssues issues (issueGroupKey issue) ↔
       j ∈ issues ∧ issueGroupKey j = issueGroupKey issue) ∧
    (∀ i2 : Issue, issue.file = i2.file → issue.title = i2.title →
       issueGroupKey issue = issueGroupKey i2) := by
  refine ⟨rfl, ?_, ?_⟩
  · simp [groupedIssues, List.mem_filter]
  · intro i2 hf ht
    unfold issueGroupKey normalizeTitle
    rw [hf, ht]

/-- C2 counterexample: the claim sorts only the first four remaining tokens;
on a five-token title the code (sort all, then take four) produces a
different key than the claim (take four, then sort). -/
theorem issueGroupKey_claim_cex :
    issueGroupKey ({ file := "src/x.y", title := "Zebra apple banana cherry date" } : Issue) ≠
      "src/x.y" ++ "::" ++
        (normalizeTitleClaimC2 "Zebra apple banana cherry date".data).asString := by
  decide

/-- C2 witness: a concrete issue lies in its own group bucket. -/
theorem issueGroupKey_witness :
    ({ file := "p.go", title := "null deref in parse" } : Issue) ∈
      groupedIssues [({ file := "p.go", title := "null deref in parse" } : Issue)]
        (issueGroupKey ({ file := "p.go", title := "null deref in parse" } : Issue)) :=
  (issueGroupKey_spec ({ file := "p.go", title := "null deref in parse" } : Issue)
      ({ file := "p.go", title := "null deref in parse" } : Issue)
      [({ file := "p.go", title := "null deref in parse" } : Issue)]).2.1.mpr
    ⟨by simp, rfl⟩

/-- C7: with an empty (trimmed) `raised_by`, or with no raise-action opinion
of the raiser at turn 0, the initial-raise selection returns null; with a
nonempty raiser and exactly one candidate it returns that candidate; and any
returned opinion is a candidate with minimal timestamp among candidates. -/
theorem initialRaise_spec (issue : Issue) :
    (jsTrim issue.raised_by.data = [] → _getInitialRaiseOpinion issue = none) ∧
    (raiseCandidates issue = [] → _getInitialRaiseOpinion issue = none) ∧
    (∀ op, jsTrim issue.raised_by.data ≠ [] → raiseCandidates issue = [op] →
       _getInitialRaiseOpinion issue = some op) ∧
    (∀ op, _getInitialRaiseOpinion issue = some op →
       op ∈ raiseCandidates issue ∧
       ∀ p ∈ raiseCandidates issue, op.timestamp ≤ p.timestamp) := by
  refine ⟨?_, ?_, ?_, ?_⟩
  · intro h
    unfold _getInitialRaiseOpinion
    rw [if_pos h]
  · intro h
    unfold _getInitialRaiseOpinion
    by_cases hrb : jsTrim issue.raised_by.data = []
    · rw [if_pos hrb]
    · rw [if_neg hrb]
      simp [h]
  · intro op hrb h
    unfold _getInitialRaiseOpinion
    rw [if_neg hrb]
    simp [h]
  · intro op hop
    unfold _getInitialRaiseOpinion at hop
    by_cases hrb : jsTrim issue.raised_by.data = []
    · rw [if_pos hrb] at hop
      exact absurd hop (by simp)
    · rw [if_neg hrb] at hop
      by_cases hc : (raiseCandidates issue).isEmpty
      · simp [hc] at hop
      · simp only [hc, Bool.false_eq_true, if_false] at hop
        have hperm := List.perm_insertionSort
          (fun a b : Opinion => a.timestamp ≤ b.timestamp) (raiseCandidates issue)
        haveI htot : IsTotal Opinion (fun a b => a.timestamp ≤ b.timestamp) :=
          ⟨fun a b => Int.le_total a.timestamp b.timestamp⟩
        haveI htr : IsTrans Opinion (fun a b => a.timestamp ≤ b.timestamp) :=
          ⟨fun a b c hab hbc => Int.le_trans hab hbc⟩
        have hsorted := List.sorted_insertionSort
          (fun a b : Opinion => a.timestamp ≤ b.timestamp) (raiseCandidates issue)
        cases hms : List.insertionSort
            (fun a b : Opinion => a.timestamp ≤ b.timestamp) (raiseCandidates issue) with
        | nil => rw [hms] at hop; exact absurd hop (by simp)
        | cons a tl =>
          rw [hms] at hop
          simp only [List.head?_cons, Option.some.injEq] at hop
          rw [hms] at hperm hsorted
          subst hop
          constructor
          · exact hperm.mem_iff.mp (List.mem_cons_self _ _)
          · intro p hp
            rcases List.mem_cons.mp (hperm.symm.mem_iff.mp hp) with rfl | hptl
            · exact Int.le_refl _
            · exact (List.pairwise_cons.mp hsorted).1 p hptl

/-- C7 witness: a thread with exactly one raise opinion by the raiser at
turn 0 yields exactly that opinion. -/
theorem initialRaise_witness :
    _getInitialRaiseOpinion
        ({ raised_by := "gpt", thread := [⟨"gpt", "raise", 0, 42⟩] } : Issue)
      = some ⟨"gpt", "raise", 0, 42⟩ :=
  (initialRaise_spec _).2.2.1 ⟨"gpt", "raise", 0, 42⟩ (by decide) (by decide)

/-- The parser emits rows that obey the per-hunk numbering discipline from
any starting counters. -/
theorem parseDiffAux_numbered (lines : List (List Char)) :
    ∀ o n, rowsNumberedFrom o n (parseDiffAux o n lines) = true := by
  induction lines with
  | nil => intro o n; rfl
  | cons line rest ih =>
    intro o n
    unfold parseDiffAux
    by_cases h1 : startsWith "@@".data (jsTrimStart line) = true
    · rw [if_pos h1]
      cases hh : findHunkHeader line with
      | some ab =>
        obtain ⟨a, b⟩ := ab
        unfold rowsNumberedFrom
        simp [hh, ih]
      | none =>
        unfold rowsNumberedFrom
        simp [hh, ih]
    · rw [if_neg h1]
      by_cases h2 : isMetaLine (jsTrimStart line) = true
      · rw [if_pos h2]
        exact ih o n
      · rw [if_neg h2]
        by_cases h3 : startsWith "+".data line = true
        · rw [if_pos h3]
          unfold rowsNumberedFrom
          simp [ih]
        · rw [if_neg h3]
          by_cases h4 : startsWith "-".data line = true
          · rw [if_pos h4]
            unfold rowsNumberedFrom
            simp [ih]
          · rw [if_neg h4]
            unfold rowsNumberedFrom
            simp [ih]

/-- A line matching the metadata pattern (and not the hunk test) emits no
row and leaves the counters unchanged. -/
theorem parseDiffAux_skip (o n : Nat) (line : List Char) (rest : List (List Char))
    (h1 : startsWith "@@".data (jsTrimStart line) = false)
    (h2 : isMetaLine (jsTrimStart line) = true) :
    parseDiffAux o n (line :: rest) = parseDiffAux o n rest := by
  conv_lhs => unfold parseDiffAux
  rw [if_neg (by simp [h1]), if_pos h2]

/-- C9: diff parsing is total with empty output on null or empty input,
metadata lines produce no rows, and within each hunk opened by a matching
`@@ -a[,n] +b[,m] @@` header every added or context row carries new-file
number b plus the count of earlier added-plus-context rows of the hunk,
and every deleted or context row carries old-file number a plus the count
of earlier deleted-plus-context rows (`rowsNumberedFrom 0 0`). -/
theorem parseDiffLines_spec :
    parseDiffLines none = [] ∧
    parseDiffLines (some "") = [] ∧
    (∀ content, rowsNumberedFrom 0 0 (parseDiffLines content) = true) ∧
    (∀ (line : List Char) (rest : List (List Char)) (o n : Nat),
       isMetaLine (jsTrimStart line) = true →
       startsWith "@@".data (jsTrimStart line) = false →
       parseDiffAux o n (line :: rest) = parseDiffAux o n rest) := by
  refine ⟨rfl, rfl, ?_, ?_⟩
  · intro content
    cases content with
    | none => rfl
    | some s =>
      simp only [parseDiffLines]
      by_cases h : s = ""
      · rw [if_pos h]
        rfl
      · rw [if_neg h]
        exact parseDiffAux_numbered (splitNl s.data) 0 0
  · intro line rest o n h2 h1
    exact parseDiffAux_skip o n line rest h1 h2

/-- C9 witness: a `---` metadata line with a following content line emits
exactly the rows of the remaining lines. -/
theorem parseDiffLines_witness :
    parseDiffAux 0 0 ["--- a/file".data, "+x".data] = parseDiffAux 0 0 ["+x".data] :=
  parseDiffLines_spec.2.2.2 "--- a/file".data ["+x".data] 0 0 (by decide) (by decide)

/-- C6 (amended, spec-modelled): vote weight is max(confidence, 0.1) when a
confidence is supplied and otherwise the strictness mapping 1.0 / 0.7 / 0.4;
consensus is reached exactly when one side exceeds the other by at least T,
or when all voices are heard and the latest votes have a strict majority on
one side (deadlock bypass); the winning side fixes `consensus_type`; and
`final_severity` falls back to the raise severity when no vote suggests a
severity. -/
theorem consensus_spec (votes : List Vote) (allVoted : Bool) (T : ℚ) (rs : Severity) :
    (∀ (c : ℚ) (s : Strictness), voteWeight (some c) s = max c (1 / 10)) ∧
    (voteWeight none .strict = 1 ∧ voteWeight none .balanced = 7 / 10 ∧
       voteWeight none .lenient = 2 / 5) ∧
    ((computeConsensus votes allVoted T rs).consensus = true ↔
       (fixWeight votes ≥ nofixWeight votes + T ∨ nofixWeight votes ≥ fixWeight votes + T ∨
        (allVoted = true ∧ fixCount votes ≠ nofixCount votes))) ∧
    (fixWeight votes ≥ nofixWeight votes + T →
       (computeConsensus votes allVoted T rs).consensus_type = "fix_required") ∧
    (¬ fixWeight votes ≥ nofixWeight votes + T → nofixWeight votes ≥ fixWeight votes + T →
       (computeConsensus votes allVoted T rs).consensus_type = "dismissed") ∧
    ((votes.filter (fun v => v.suggested.isSome)).isEmpty = true →
       (computeConsensus votes allVoted T rs).final_severity = rs) := by
  refine ⟨fun c s => rfl, ⟨rfl, rfl, rfl⟩, ?_, ?_, ?_, ?_⟩
  · simp only [computeConsensus]
    by_cases h1 : fixWeight votes ≥ nofixWeight votes + T
    · rw [if_pos h1]
      simp [h1]
    · rw [if_neg h1]
      by_cases h2 : nofixWeight votes ≥ fixWeight votes + T
      · rw [if_pos h2]
        simp [h1, h2]
      · rw [if_neg h2]
        cases allVoted with
        | false => simp [h1, h2]
        | true =>
          rw [if_pos rfl]
          by_cases h3 : fixCount votes > nofixCount votes
          · rw [if_pos h3]
            simp only [true_iff]
            exact Or.inr (Or.inr ⟨trivial, by omega⟩)
          · rw [if_neg h3]
            by_cases h4 : nofixCount votes > fixCount votes
            · rw [if_pos h4]
              simp only [true_iff]
              exact Or.inr (Or.inr ⟨trivial, by omega⟩)
            · rw [if_neg h4]
              simp only [Bool.false_eq_true, false_iff]
              intro hcon
              rcases hcon with h | h | ⟨_, hne⟩
              · exact h1 h
              · exact h2 h
              · exact hne (by omega)
  · intro h1
    simp only [computeConsensus]
    rw [if_pos h1]
  · intro h1 h2
    simp only [computeConsensus]
    rw [if_neg h1, if_pos h2]
  · intro hempty
    have hfs : finalSeverity votes rs = rs := by
      unfold finalSeverity
      rw [if_pos hempty]
    simp only [computeConsensus, hfs]
    repeat' split
    all_goals rfl

/-- C6 counterexample: in the deadlock-bypass scenario consensus is reached
although neither side exceeds the other by the threshold 2.0, so the
original claim (consensus exactly when the threshold is met) is false on the
spec-modelled engine. -/
theorem consensus_threshold_cex :
    (computeConsensus sc4Votes true 2 .medium).consensus = true ∧
    ¬ (fixWeight sc4Votes ≥ nofixWeight sc4Votes + 2 ∨
       nofixWeight sc4Votes ≥ fixWeight sc4Votes + 2) := by
  have hmax : max ((3 : ℚ) / 10) (1 / 10) = 3 / 10 := max_eq_left (by norm_num)
  have hfw : fixWeight sc4Votes = 9 / 10 := by
    simp [sc4Votes, fixWeight, voteWeight, hmax]
    norm_num
  have hnw : nofixWeight sc4Votes = 0 := by
    simp [sc4Votes, nofixWeight]
  have h1 : ¬ fixWeight sc4Votes ≥ nofixWeight sc4Votes + 2 := by
    rw [hfw, hnw]; norm_num
  have h2 : ¬ nofixWeight sc4Votes ≥ fixWeight sc4Votes + 2 := by
    rw [hfw, hnw]; norm_num
  refine ⟨?_, ?_⟩
  · simp only [computeConsensus]
    rw [if_neg h1, if_neg h2, if_pos trivial,
      if_pos (by decide : fixCount sc4Votes > nofixCount sc4Votes)]
  · intro h
    rcases h with h | h
    · exact h1 h
    · exact h2 h

/-- C6 witness: the two-reviewer scenario of spec section 8 reaches
consensus. -/
theorem consensus_witness :
    (computeConsensus [⟨true, some (8 / 10), .balanced, none⟩, ⟨true, none, .strict, none⟩]
        true 2 Severity.high).consensus = true :=
  (consensus_spec [⟨true, some (8 / 10), .balanced, none⟩, ⟨true, none, .strict, none⟩]
      true 2 Severity.high).2.2.1.mpr
    (Or.inr (Or.inr ⟨rfl, by decide⟩))

theorem drop_length_takeWhile (p : Char → Bool) (l : List Char) :
    l.drop (l.takeWhile p).length = l.dropWhile p := by
  induction l with
  | nil => rfl
  | cons c rest ih =>
    by_cases h : p c
    · simp [List.takeWhile_cons, List.dropWhile_cons, h, ih]
    · simp [List.takeWhile_cons, List.dropWhile_cons, h]

theorem head_dropWhile_false (p : Char → Bool) (l : List Char) :
    ∀ c, (l.dropWhile p).head? = some c → p c = false := by
  induction l with
  | nil => intro c h; simp at h
  | cons a rest ih =>
    intro c h
    by_cases ha : p a
    · rw [List.dropWhile_cons, if_pos ha] at h
      exact ih c h
    · rw [List.dropWhile_cons, if_neg ha] at h
      simp at h
      rw [← h]
      exact Bool.eq_false_iff.mpr ha

theorem takeWhile_all (p : Char → Bool) (m : List Char) (h : m.all p = true) :
    m.takeWhile p = m := by
  induction m with
  | nil => rfl
  | cons c rest ih =>
    simp only [List.all_cons, Bool.and_eq_true] at h
    simp [List.takeWhile_cons, h.1, ih h.2]

theorem takeWhile_append_stop (p : Char → Bool) (m post : List Char)
    (hall : m.all p = true) (hpost : ∀ c, post.head? = some c → p c = false) :
    (m ++ post).takeWhile p = m := by
  rw [List.takeWhile_append]
  rw [takeWhile_all p m hall]
  rw [if_pos rfl]
  cases post with
  | nil => simp
  | cons c rest =>
    rw [List.takeWhile_cons, if_neg (by simp [hpost c rfl])]
    simp

theorem takeWhile_append_at (p : Char → Bool) (xs ys : List Char) (hc : p '@' = false) :
    (xs ++ '@' :: ys).takeWhile p = xs.takeWhile p := by
  rw [List.takeWhile_append]
  by_cases h : (xs.takeWhile p).length = xs.length
  · rw [if_pos h, List.takeWhile_cons, if_neg (by simp [hc])]
    have : xs.takeWhile p = xs := List.Sublist.eq_of_length (List.takeWhile_sublist p) h
    simp [this]
  · rw [if_neg h]

/-- Soundness of the mention scan: every emitted name is a maximal nonempty
run of name characters following a literal `@` in the text. -/
theorem scanMentions_sound (n : Nat) : ∀ (l : List Char), l.length ≤ n → ∀ m, m ∈ scanMentions l →
    ∃ pre post, l = pre ++ '@' :: (m ++ post) ∧ m ≠ [] ∧ m.all nameChar = true ∧
      (∀ c, post.head? = some c → nameChar c = false) := by
  induction n with
  | zero =>
    intro l hl m hm
    have : l = [] := List.eq_nil_of_length_eq_zero (Nat.le_zero.mp hl)
    subst this
    simp [scanMentions] at hm
  | succ n ih =>
    intro l hl m hm
    cases l with
    | nil => simp [scanMentions] at hm
    | cons c rest =>
      rw [scanMentions] at hm
      by_cases hc : c = '@'
      · rw [if_pos hc] at hm
        by_cases hname : (rest.takeWhile nameChar).isEmpty
        · rw [if_pos hname] at hm
          obtain ⟨pre, post, heq, hne, hall, hpost⟩ :=
            ih rest (by simp at hl; omega) m hm
          exact ⟨c :: pre, post, by simp [heq], hne, hall, hpost⟩
        · rw [if_neg hname] at hm
          rcases List.mem_cons.mp hm with rfl | hm2
          · refine ⟨[], rest.dropWhile nameChar, ?_, ?_, ?_, ?_⟩
            · subst hc
              simp [List.takeWhile_append_dropWhile]
            · simpa [List.isEmpty_iff] using hname
            · rw [List.all_eq_true]
              intro x hx
              exact List.mem_takeWhile_imp hx
            · exact head_dropWhile_false nameChar rest
          · rw [drop_length_takeWhile] at hm2
            obtain ⟨pre, post, heq, hne, hall, hpost⟩ := ih (rest.dropWhile nameChar)
              (by
                have h1 : (rest.dropWhile nameChar).length ≤ rest.length :=
                  List.Sublist.length_le (List.dropWhile_sublist nameChar)
                have h2 : rest.length ≤ n := by simp at hl; omega
                omega) m hm2
            refine ⟨c :: rest.takeWhile nameChar ++ pre, post, ?_, hne, hall, hpost⟩
            subst hc
            have : rest = rest.takeWhile nameChar ++ rest.dropWhile nameChar :=
              (List.takeWhile_append_dropWhile nameChar rest).symm
            conv_lhs => rw [this]
            simp [heq]
      · rw [if_neg hc] at hm
        obtain ⟨pre, post, heq, hne, hall, hpost⟩ :=
          ih rest (by simp at hl; omega) m hm
        exact ⟨c :: pre, post, by simp [heq], hne, hall, hpost⟩


theorem scanMentions_complete_head (m post : List Char) (hm : m ≠ [])
    (hall : m.all nameChar = true)
    (hpost : ∀ c, post.head? = some c → nameChar c = false) :
    m ∈ scanMentions ('@' :: (m ++ post)) := by
  rw [scanMentions, if_pos rfl]
  rw [takeWhile_append_stop nameChar m post hall hpost]
  rw [if_neg (by simpa [List.isEmpty_iff] using hm)]
  exact List.mem_cons_self _ _

/-- Completeness of the mention scan: every maximal nonempty run of name
characters following a literal `@` in the text is emitted. -/
theorem scanMentions_complete (n : Nat) : ∀ (pre m post : List Char), pre.length ≤ n →
    m ≠ [] → m.all nameChar = true →
    (∀ c, post.head? = some c → nameChar c = false) →
    m ∈ scanMentions (pre ++ '@' :: (m ++ post)) := by
  induction n with
  | zero =>
    intro pre m post hl hm hall hpost
    have : pre = [] := List.eq_nil_of_length_eq_zero (Nat.le_zero.mp hl)
    subst this
    exact scanMentions_complete_head m post hm hall hpost
  | succ n ih =>
    intro pre m post hl hm hall hpost
    cases pre with
    | nil => exact scanMentions_complete_head m post hm hall hpost
    | cons c pre2 =>
      rw [List.cons_append, scanMentions]
      by_cases hc : c = '@'
      · rw [if_pos hc]
        rw [takeWhile_append_at nameChar pre2 (m ++ post) (by decide)]
        by_cases hname : (pre2.takeWhile nameChar).isEmpty
        · rw [if_pos hname]
          exact ih pre2 m post (by simp at hl; omega) hm hall hpost
        · rw [if_neg hname]
          apply List.mem_cons_of_mem
          have hlen : (pre2.takeWhile nameChar).length ≤ pre2.length :=
            List.Sublist.length_le (List.takeWhile_sublist nameChar)
          rw [List.drop_append_of_le_length hlen]
          apply ih (pre2.drop (pre2.takeWhile nameChar).length) m post ?_ hm hall hpost
          have : (pre2.drop (pre2.takeWhile nameChar).length).length ≤ pre2.length := by
            rw [List.length_drop]
            omega
          simp at hl
          omega
      · rw [if_neg hc]
        exact ih pre2 m post (by simp at hl; omega) hm hall hpost

/-- Membership in the deduplication with accumulator: an element appears
exactly when it appears in the input and was not already seen. -/
theorem mem_dedupFirstAux {α : Type} [DecidableEq α] (l : List α) :
    ∀ (seen : List α) (x : α), x ∈ dedupFirstAux seen l ↔ x ∈ l ∧ x ∉ seen := by
  induction l with
  | nil => intro seen x; simp [dedupFirstAux]
  | cons a rest ih =>
    intro seen x
    rw [dedupFirstAux]
    by_cases ha : seen.contains a
    · rw [if_pos ha]
      rw [ih seen x]
      constructor
      · exact fun h => ⟨List.mem_cons_of_mem a h.1, h.2⟩
      · rintro ⟨h1, h2⟩
        rcases List.mem_cons.mp h1 with rfl | h3
        · exact absurd (List.mem_of_elem_eq_true ha) h2
        · exact ⟨h3, h2⟩
    · rw [if_neg ha]
      constructor
      · intro h
        rcases List.mem_cons.mp h with rfl | h2
        · refine ⟨List.mem_cons_self _ _, fun hx => ha (List.elem_eq_true_of_mem hx)⟩
        · have := (ih (a :: seen) x).mp h2
          exact ⟨List.mem_cons_of_mem a this.1,
            fun hx => this.2 (List.mem_cons_of_mem a hx)⟩
      · rintro ⟨h1, h2⟩
        rcases List.mem_cons.mp h1 with rfl | h3
        · exact List.mem_cons_self _ _
        · by_cases hxa : x = a
          · subst hxa
            exact List.mem_cons_self _ _
          · exact List.mem_cons_of_mem a ((ih (a :: seen) x).mpr
              ⟨h3, by simp [hxa, h2]⟩)

theorem mem_dedupFirst {α : Type} [DecidableEq α] (l : List α) (x : α) :
    x ∈ dedupFirst l ↔ x ∈ l := by
  rw [dedupFirst, mem_dedupFirstAux]
  simp

theorem nodup_dedupFirstAux {α : Type} [DecidableEq α] (l : List α) :
    ∀ (seen : List α), (dedupFirstAux seen l).Nodup := by
  induction l with
  | nil => intro seen; simp [dedupFirstAux]
  | cons a rest ih =>
    intro seen
    rw [dedupFirstAux]
    by_cases ha : seen.contains a
    · rw [if_pos ha]
      exact ih seen
    · rw [if_neg ha]
      refine List.nodup_cons.mpr ⟨?_, ih (a :: seen)⟩
      intro hmem
      exact ((mem_dedupFirstAux rest (a :: seen) a).mp hmem).2 (List.mem_cons_self _ _)

theorem nodup_dedupFirst {α : Type} [DecidableEq α] (l : List α) :
    (dedupFirst l).Nodup :=
  nodup_dedupFirstAux l []

/-- C10: a whitespace-only comment is never submitted; the submitted
mentions are the regex matches with `@` stripped, deduplicated keeping first
occurrences, hence each name appears at most once; and a name is scanned
exactly when it occurs in the text as a maximal nonempty `@`-prefixed run of
characters from `[A-Za-z0-9_-]`. -/
theorem submitOpinion_mentions_spec (text : String) (sev : Option String) (act : String) :
    (jsTrim text.data = [] → submitOpinion text sev act = none) ∧
    (∀ r, submitOpinion text sev act = some r →
       r.mentions = (dedupFirst (scanMentions (jsTrim text.data))).map List.asString ∧
       r.mentions.Nodup) ∧
    (∀ l m : List Char, (m ∈ dedupFirst (scanMentions l) ↔ m ∈ scanMentions l)) ∧
    (∀ l m : List Char,
       (m ∈ scanMentions l ↔
         ∃ pre post, l = pre ++ '@' :: (m ++ post) ∧ m ≠ [] ∧ m.all nameChar = true ∧
           (∀ c, post.head? = some c → nameChar c = false))) := by
  refine ⟨?_, ?_, ?_, ?_⟩
  · intro h
    unfold submitOpinion
    rw [if_pos (by simpa [List.isEmpty_iff] using h)]
  · intro r hr
    unfold submitOpinion at hr
    by_cases h : (jsTrim text.data).isEmpty
    · rw [if_pos h] at hr
      exact absurd hr (by simp)
    · rw [if_neg h] at hr
      have := Option.some.inj hr
      subst this
      refine ⟨rfl, ?_⟩
      apply List.Nodup.map ?_ (nodup_dedupFirst _)
      intro a b hab
      have : (List.asString a).data = (List.asString b).data := by rw [hab]
      simpa [List.asString] using this
  · intro l m
    exact mem_dedupFirst _ _
  · intro l m
    constructor
    · exact fun h => scanMentions_sound l.length l (Nat.le_refl _) m h
    · rintro ⟨pre, post, rfl, hm, hall, hpost⟩
      exact scanMentions_complete pre.length pre m post (Nat.le_refl _) hm hall hpost

/-- C10 witness: a whitespace-only comment aborts without a request. -/
theorem submitOpinion_witness :
    submitOpinion "   " (some "high") "comment" = none :=
  (submitOpinion_mentions_spec "   " (some "high") "comment").1 (by decide)

/-- Filtering out a newly seen voter commutes with filtering the already
seen ones. -/
theorem filter_seen_cons (m : String) (seen : List String) (rest : List Opinion) :
    (rest.filter (fun o => !seen.contains o.model_id)).filter (fun o => o.model_id ≠ m)
      = rest.filter (fun o => !((m :: seen).contains o.model_id)) := by
  rw [List.filter_filter]
  apply List.filter_congr
  intro o _
  by_cases hx : o.model_id = m <;> simp [hx, List.contains_cons]

/-- The tally loop counts exactly the earliest non-status_change opinion of
each unseen voter, bucketed by normalized action. -/
theorem voteTallyAux_eq (thread : List Opinion) :
    ∀ (seen : List String) (f c n : Nat),
      voteTallyAux seen f c n thread =
        ⟨f + (bucketCounts (countedOps (thread.filter
            (fun op => !seen.contains op.model_id)))).fix,
         c + (bucketCounts (countedOps (thread.filter
            (fun op => !seen.contains op.model_id)))).comment,
         n + (bucketCounts (countedOps (thread.filter
            (fun op => !seen.contains op.model_id)))).nofix⟩ := by
  induction thread with
  | nil =>
    intro seen f c n
    simp [voteTallyAux, bucketCounts, countedOps]
  | cons op rest ih =>
    intro seen f c n
    simp only [voteTallyAux, List.filter_cons]
    by_cases hst : _normalizeReviewerAction op.action = "status_change"
    · rw [if_pos hst]
      by_cases hseen : seen.contains op.model_id
      · simp only [hseen, Bool.not_true, Bool.false_eq_true, if_false]
        exact ih seen f c n
      · have hseenf : seen.contains op.model_id = false := Bool.eq_false_iff.mpr hseen
        simp only [hseenf, Bool.not_false]
        rw [if_pos trivial, countedOps.eq_2, if_pos hst]
        exact ih seen f c n
    · rw [if_neg hst]
      by_cases hseen : seen.contains op.model_id
      · rw [if_pos hseen]
        simp only [hseen, Bool.not_true, Bool.false_eq_true, if_false]
        exact ih seen f c n
      · rw [if_neg hseen]
        have hseenf : seen.contains op.model_id = false := Bool.eq_false_iff.mpr hseen
        simp only [hseenf, Bool.not_false]
        rw [if_pos trivial, countedOps.eq_2, if_neg hst, filter_seen_cons]
        have hrec := ih (op.model_id :: seen)
        have hmem := normalizeReviewerActionMem op.action
        simp only [reviewerActionSet, List.mem_cons, List.not_mem_nil, or_false] at hmem
        rcases hmem with ha | ha | ha | ha | ha | ha | ha
        · rw [if_pos (by simp [ha]), hrec (f + 1) c n]
          simp only [bucketCounts, List.countP_cons, VoteTally.mk.injEq]
          refine ⟨?_, ?_, ?_⟩ <;> (simp [ha]; try omega)
        · rw [if_pos (by simp [ha]), hrec (f + 1) c n]
          simp only [bucketCounts, List.countP_cons, VoteTally.mk.injEq]
          refine ⟨?_, ?_, ?_⟩ <;> (simp [ha]; try omega)
        · rw [if_neg (by simp [ha]), if_neg (by simp [ha]),
            if_pos (by simp [ha]), hrec f c (n + 1)]
          simp only [bucketCounts, List.countP_cons, VoteTally.mk.injEq]
          refine ⟨?_, ?_, ?_⟩ <;> (simp [ha]; try omega)
        · rw [if_neg (by simp [ha]), if_neg (by simp [ha]),
            if_pos (by simp [ha]), hrec f c (n + 1)]
          simp only [bucketCounts, List.countP_cons, VoteTally.mk.injEq]
          refine ⟨?_, ?_, ?_⟩ <;> (simp [ha]; try omega)
        · rw [if_neg (by simp [ha]), if_neg (by simp [ha]),
            if_pos (by simp [ha]), hrec f c (n + 1)]
          simp only [bucketCounts, List.countP_cons, VoteTally.mk.injEq]
          refine ⟨?_, ?_, ?_⟩ <;> (simp [ha]; try omega)
        · rw [if_neg (by simp [ha]), if_pos (by simp [ha]), hrec f (c + 1) n]
          simp only [bucketCounts, List.countP_cons, VoteTally.mk.injEq]
          refine ⟨?_, ?_, ?_⟩ <;> (simp [ha]; try omega)
        · exact absurd ha hst

/-- Counted opinions come from the thread. -/
theorem mem_countedOps (l : List Opinion) : ∀ op ∈ countedOps l, op ∈ l := by
  suffices H : ∀ (n : Nat) (l : List Opinion), l.length ≤ n → ∀ op ∈ countedOps l, op ∈ l from
    H l.length l (Nat.le_refl _)
  intro n
  induction n with
  | zero =>
    intro l hl op hop
    have : l = [] := List.eq_nil_of_length_eq_zero (Nat.le_zero.mp hl)
    subst this
    simp [countedOps.eq_1] at hop
  | succ n ih =>
    intro l hl op hop
    cases l with
    | nil => simp [countedOps.eq_1] at hop
    | cons a rest =>
      rw [countedOps.eq_2] at hop
      by_cases hst : _normalizeReviewerAction a.action = "status_change"
      · rw [if_pos hst] at hop
        exact List.mem_cons_of_mem a (ih rest (by simp at hl; omega) op hop)
      · rw [if_neg hst] at hop
        rcases List.mem_cons.mp hop with rfl | h2
        · exact List.mem_cons_self _ _
        · have hlen : (rest.filter (fun o => o.model_id ≠ a.model_id)).length ≤ n := by
            have h1 := List.length_filter_le (fun o => decide (o.model_id ≠ a.model_id)) rest
            simp only [List.length_cons] at hl
            omega
          have := ih (rest.filter (fun o => o.model_id ≠ a.model_id)) hlen op h2
          exact List.mem_cons_of_mem a (List.mem_filter.mp this).1

/-- No voter owns two counted opinions. -/
theorem countedOps_voters_nodup (l : List Opinion) :
    ((countedOps l).map (fun op => op.model_id)).Nodup := by
  suffices H : ∀ (n : Nat) (l : List Opinion), l.length ≤ n →
      ((countedOps l).map (fun op => op.model_id)).Nodup from
    H l.length l (Nat.le_refl _)
  intro n
  induction n with
  | zero =>
    intro l hl
    have : l = [] := List.eq_nil_of_length_eq_zero (Nat.le_zero.mp hl)
    subst this
    simp [countedOps.eq_1]
  | succ n ih =>
    intro l hl
    cases l with
    | nil => simp [countedOps.eq_1]
    | cons a rest =>
      rw [countedOps.eq_2]
      by_cases hst : _normalizeReviewerAction a.action = "status_change"
      · rw [if_pos hst]
        exact ih rest (by simp at hl; omega)
      · rw [if_neg hst]
        rw [List.map_cons]
        have hlen : (rest.filter (fun o => o.model_id ≠ a.model_id)).length ≤ n := by
          have h1 := List.length_filter_le (fun o => decide (o.model_id ≠ a.model_id)) rest
          simp only [List.length_cons] at hl
          omega
        refine List.nodup_cons.mpr ⟨?_, ih _ hlen⟩
        intro hmem
        rcases List.mem_map.mp hmem with ⟨op, hop, heq⟩
        have hopmem := mem_countedOps _ op hop
        have hne := (List.mem_filter.mp hopmem).2
        simp only [decide_eq_true_eq] at hne
        exact hne heq

/-- C1 (amended): the tally counts exactly one opinion per voter, taken
from that voter's EARLIEST non-status_change opinion in thread order (a
comment consumes the voter's slot); raise and fix_required count on the fix
side, no_fix, false_positive and withdraw on the no-fix side, and comment in
a separate middle bucket, contributing to neither side; status_change
contributes nothing and does not consume the slot. -/
theorem voteTally_spec (issue : Issue) :
    voteTallyBadgeHtml issue = amendedVoteTally issue.thread ∧
    ((countedOps issue.thread).map (fun op => op.model_id)).Nodup ∧
    (∀ op ∈ countedOps issue.thread, op ∈ issue.thread) := by
  refine ⟨?_, countedOps_voters_nodup _, mem_countedOps _⟩
  unfold voteTallyBadgeHtml amendedVoteTally
  rw [voteTallyAux_eq]
  have hfil : issue.thread.filter (fun op => !(([] : List String).contains op.model_id))
      = issue.thread :=
    List.filter_eq_self.mpr (fun a _ => rfl)
  rw [hfil]
  simp

/-- C1 counterexample: the claim says the voter's latest vote-bearing
opinion counts (here fix_required, so one fix vote); the code counts the
earliest non-status_change opinion instead, so the comment consumes the
slot and the fix side stays 0. -/
theorem voteTally_latest_cex :
    (voteTallyBadgeHtml c1CexIssue).fix ≠ claimFixCount c1CexIssue.thread ∧
    (voteTallyBadgeHtml c1CexIssue).fix = 0 ∧ claimFixCount c1CexIssue.thread = 1 := by
  decide


/-- C1 witness: a thread with a single raise opinion evaluated through the
tally characterization. -/
theorem voteTally_witness :
    voteTallyBadgeHtml ({ thread := [⟨"A", "raise", 0, 0⟩] } : Issue)
        = amendedVoteTally [⟨"A", "raise", 0, 0⟩] ∧
    (⟨"A", "raise", 0, 0⟩ : Opinion) ∈ ({ thread := [⟨"A", "raise", 0, 0⟩] } : Issue).thread := by
  have h := voteTally_spec ({ thread := [⟨"A", "raise", 0, 0⟩] } : Issue)
  refine ⟨h.1, h.2.2 ⟨"A", "raise", 0, 0⟩ ?_⟩
  show (⟨"A", "raise", 0, 0⟩ : Opinion) ∈ countedOps [⟨"A", "raise", 0, 0⟩]
  rw [countedOps.eq_2, if_neg (by decide)]
  exact List.mem_cons_self _ _

end AiReview
